import Mathlib

/- Verification of the measurement-orchestration engine of the m1k SMU driver
(jmball/m1k-smu).  The definitions below are a shallow embedding of the Python
class `smu`: the current revision lives in `src/src/m1k/m1k.py`, an earlier
revision (used by the dual-sweep claim) in `src/m1k/m1k.py`.  Machine floats
are modelled as rationals; Python exceptions are modelled with `Except`. -/

namespace M1K

/-- Python `int()` applied to a real-valued expression truncates toward zero. -/
def pyInt (q : ℚ) : ℤ := if 0 ≤ q then ⌊q⌋ else ⌈q⌉

/-- Python errors surfaced by the engine.  `valueError` also stands for the
`BufferOverflow` condition, which the code raises as a `ValueError`. -/
inductive PyErr where
  | valueError
  | zeroDivision
deriving DecidableEq, Repr

/-- Checked rational division: Python raises `ZeroDivisionError` when the
denominator is zero. -/
def pyDiv (a b : ℚ) : Except PyErr ℚ :=
  if b = 0 then .error .zeroDivision else .ok (a / b)

/-! ### Integration-timing state (`plf` / `nplc` / `settling_delay` setters)

Mirrors the fields `_plf`, `_nplc`, `_settling_delay`, `_nplc_samples`,
`_settling_delay_samples`, `_samples_per_datum` of the `smu` object and the
three property setters of `src/src/m1k/m1k.py`.  The session sample rate is
fixed once `connect` has configured the session, so it is a parameter. -/

structure TimingState where
  plf : ℚ
  nplc : Option ℚ
  settlingDelay : Option ℚ
  nplcSamples : ℤ
  settlingDelaySamples : ℤ
  samplesPerDatum : ℤ

/-- The `plf` setter: stores the new value and, when `_nplc` has been
initialised, recomputes `_nplc_samples` and `_samples_per_datum`. -/
def setPlf (sr : ℚ) (s : TimingState) (p : ℚ) : TimingState :=
  match s.nplc with
  | none => { s with plf := p }
  | some n =>
      let ns := pyInt ((1 / p) * n * sr)
      { s with plf := p, nplcSamples := ns,
               samplesPerDatum := ns + s.settlingDelaySamples }

/-- The `nplc` setter: stores the value, recomputes `_nplc_samples` from the
current `plf` and the sample rate, and updates `_samples_per_datum`. -/
def setNplc (sr : ℚ) (s : TimingState) (n : ℚ) : TimingState :=
  let ns := pyInt ((1 / s.plf) * n * sr)
  { s with nplc := some n, nplcSamples := ns,
           samplesPerDatum := ns + s.settlingDelaySamples }

/-- The `settling_delay` setter: stores the value, recomputes
`_settling_delay_samples`, and updates `_samples_per_datum`. -/
def setSettlingDelay (sr : ℚ) (s : TimingState) (d : ℚ) : TimingState :=
  let ds := pyInt (d * sr)
  { s with settlingDelay := some d, settlingDelaySamples := ds,
           samplesPerDatum := s.nplcSamples + ds }

/-- One assignment to one of the three timing properties. -/
inductive TimingAssign where
  | plf (p : ℚ)
  | nplc (n : ℚ)
  | settlingDelay (d : ℚ)

/-- Apply one property assignment. -/
def applyAssign (sr : ℚ) (s : TimingState) (a : TimingAssign) : TimingState :=
  match a with
  | .plf p => setPlf sr s p
  | .nplc n => setNplc sr s n
  | .settlingDelay d => setSettlingDelay sr s d

/-- Run a sequence of property assignments. -/
def runAssigns (sr : ℚ) (s : TimingState) (l : List TimingAssign) : TimingState :=
  l.foldl (applyAssign sr) s

/-- Invariant: `_nplc_samples` and `_samples_per_datum` agree with the latest
`nplc` and `plf` values. -/
def NplcConsistent (sr : ℚ) (s : TimingState) : Prop :=
  ∃ n, s.nplc = some n ∧ s.nplcSamples = pyInt (n / s.plf * sr) ∧
    s.samplesPerDatum = s.nplcSamples + s.settlingDelaySamples

/-- Invariant: `_settling_delay_samples` agrees with the latest
`settling_delay` value. -/
def SettleConsistent (sr : ℚ) (s : TimingState) : Prop :=
  ∃ d, s.settlingDelay = some d ∧ s.settlingDelaySamples = pyInt (d * sr)

/-! ### Bounded retry with reconnect (`measure` / `enable_output` wrappers)

`measure` catches `pysmu.SessionError`, `pysmu.DeviceError` and
`ZeroDivisionError`; `enable_output` catches only the first two.  On a caught
fault before the final attempt the wrapper calls `_reconnect` and retries; a
fault caught on the final attempt is stored in `err` and re-raised after the
loop.  `self._retries = 3`. -/

/-- The transient faults distinguished by the retry wrappers, each carrying a
payload so that "re-raised unchanged" is expressible. -/
inductive Fault where
  | sessionError (code : ℕ)
  | deviceError (code : ℕ)
  | zeroDivisionError (code : ℕ)
  | other (code : ℕ)
deriving DecidableEq, Repr

/-- Outcome of one attempt at the wrapped hardware operation. -/
inductive Attempt (α : Type) where
  | ok (v : α)
  | raises (f : Fault)

/-- Exception classes caught by the retry loop in `measure`. -/
def measureCatches : Fault → Bool
  | .sessionError _ => true
  | .deviceError _ => true
  | .zeroDivisionError _ => true
  | .other _ => false

/-- Exception classes caught by the retry loop in `enable_output`. -/
def enableOutputCatches : Fault → Bool
  | .sessionError _ => true
  | .deviceError _ => true
  | .zeroDivisionError _ => false
  | .other _ => false

/-- Result of the retry loop together with how many times the wrapped
operation ran and how many `_reconnect` calls happened. -/
structure RetryResult (α : Type) where
  outcome : Except Fault α
  opCalls : ℕ
  reconnects : ℕ
deriving Repr

/-- The `for attempt in range(1, retries + 1)` loop.  `attempt` is the current
attempt number, the second `ℕ` argument the number of attempts remaining
(including this one).  A caught fault on a non-final attempt triggers a
reconnect and another attempt; a caught fault on the final attempt is stored
and re-raised after the loop; an uncaught fault propagates immediately. -/
def retryRun (catches : Fault → Bool) (op : ℕ → Attempt α) :
    ℕ → ℕ → RetryResult α
  | _, 0 => { outcome := .error (.other 0), opCalls := 0, reconnects := 0 }
  | attempt, 1 =>
      match op attempt with
      | .ok v => { outcome := .ok v, opCalls := 1, reconnects := 0 }
      | .raises f => { outcome := .error f, opCalls := 1, reconnects := 0 }
  | attempt, r + 2 =>
      match op attempt with
      | .ok v => { outcome := .ok v, opCalls := 1, reconnects := 0 }
      | .raises f =>
          if catches f then
            let rest := retryRun catches op (attempt + 1) (r + 1)
            { outcome := rest.outcome, opCalls := rest.opCalls + 1,
              reconnects := rest.reconnects + 1 }
          else
            { outcome := .error f, opCalls := 1, reconnects := 0 }

/-- The retry wrapper of `measure` (`self._retries = 3`). -/
def measureRetry (op : ℕ → Attempt α) : RetryResult α :=
  retryRun measureCatches op 1 3

/-- The retry wrapper of `enable_output` (`self._retries = 3`). -/
def enableOutputRetry (op : ℕ → Attempt α) : RetryResult α :=
  retryRun enableOutputCatches op 1 3

/-! ### `configure_sweep` of the current revision

Validates the source-mode string, then for every mapped channel computes
`step = (stop - start) / (points - 1)` (Python float division, raising
`ZeroDivisionError` when `points == 1`) and the sweep list. -/

/-- `configure_sweep(start, stop, points, source_mode)`: returns the per
channel sweep value lists, or the Python exception the call raises. -/
def configureSweep (channels : List ℕ) (start stop : ℚ) (points : ℕ)
    (sourceMode : String) : Except PyErr (List (ℕ × List ℚ)) :=
  if sourceMode = "v" ∨ sourceMode = "i" then
    channels.foldlM
      (fun acc ch => do
        let step ← pyDiv (stop - start) ((points : ℚ) - 1)
        let sweep := (List.range points).map (fun (x : ℕ) => (x : ℚ) * step + start)
        pure (acc ++ [(ch, sweep)]))
      []
  else
    .error .valueError

/-! ### Sample expansion and chunking in `_measure` (current revision)

`_measure` expands each configured value into `samples_per_datum` repeated raw
samples, takes the request size as the maximum over the requested channels,
raises the buffer-overflow `ValueError` when chunking is disallowed, and
otherwise splits the acquisition into chunks of
`floor(maximum_buffer_size / samples_per_datum) * samples_per_datum` samples. -/

/-- `_maximum_buffer_size` of an ADALM1000. -/
def maximumBufferSize : ℕ := 100000

/-- Expanded raw-sample list for one channel: every configured value repeated
`samples_per_datum` times (`samples += [value] * self._samples_per_datum`). -/
def expandSamples (values : List ℚ) (spd : ℕ) : List ℚ :=
  values.flatMap (fun v => List.replicate spd v)

/-- `num_samples_requested`: the maximum expanded-sample count over the
requested channels (starts at 0, keeps the largest length). -/
def numSamplesRequested (chValues : List (List ℚ)) (spd : ℕ) : ℕ :=
  chValues.foldl (fun acc vs => max acc (expandSamples vs spd).length) 0

/-- `samples_per_chunk`: the whole request when it fits in the buffer,
otherwise `floor(maxbuf / spd) * spd` samples. -/
def samplesPerChunk (total maxbuf spd : ℕ) : ℕ :=
  if total ≤ maxbuf then total else maxbuf / spd * spd

/-- The slice of a channel's expanded samples written for chunk `i`:
`samples[i * samples_per_chunk : (i + 1) * samples_per_chunk]`. -/
def chunkSlice (samples : List ℚ) (spc i : ℕ) : List ℚ :=
  (samples.drop (i * spc)).take spc

/-- The chunk plan of `_measure`: the buffer-overflow check followed by the
per-chunk, per-channel sample slices the acquisition loop writes.  Returns the
error raised before the acquisition loop, or the list of chunks, each chunk
holding one sample slice per requested channel.  (`num_chunks` is
`ceil(num_samples_requested / samples_per_chunk)`; a zero `samples_per_chunk`
would raise `ZeroDivisionError` there.) -/
def measurePlan (chValues : List (List ℚ)) (spd : ℕ) (allowChunking : Bool) :
    Except PyErr (List (List (List ℚ))) :=
  let total := numSamplesRequested chValues spd
  if total > maximumBufferSize ∧ allowChunking = false then
    .error .valueError
  else
    let spc := samplesPerChunk total maximumBufferSize spd
    if spc = 0 then
      .error .zeroDivision
    else
      let nc := (total + spc - 1) / spc
      .ok ((List.range nc).map
        (fun i => chValues.map (fun vs => chunkSlice (expandSamples vs spd) spc i)))

/-! ### Overcurrent recording and point statuses

In `_measure`, after the chunk-writing loop the Python variable `dev_ix` still
holds the device index of the LAST requested channel, and the recording loop
stores `self._session.devices[dev_ix].overcurrent` for every requested
channel.  `_process_data` then ORs each channel's recorded flags over all
chunks and tags every point of a flagged channel with status 2; otherwise a
point gets 1 when `abs(current) > i_threshold` and 0 otherwise. -/

/-- Per-chunk overcurrent recording of `_measure`: `devOf` maps a channel to
its device index, `devFlag` gives each device's overcurrent flag during this
chunk.  Because `dev_ix` is left over from the preceding write loop, every
channel records the flag of the last requested channel's device. -/
def recordChunkOvercurrents (channels : List ℕ) (devOf : ℕ → ℕ)
    (devFlag : ℕ → Bool) : List (ℕ × Bool) :=
  match channels.getLast? with
  | none => []
  | some lastCh => channels.map (fun ch => (ch, devFlag (devOf lastCh)))

/-- The `overcurrents` list built by `_measure`: one recording per chunk. -/
def recordOvercurrents (channels : List ℕ) (devOf : ℕ → ℕ)
    (chunkDevFlags : List (ℕ → Bool)) : List (List (ℕ × Bool)) :=
  chunkDevFlags.map (recordChunkOvercurrents channels devOf)

/-- `_process_data`: `channel_overcurrents[ch]` is the OR of the channel's
recorded flags over all chunks. -/
def channelOvercurrent (overcurrents : List (List (ℕ × Bool))) (ch : ℕ) : Bool :=
  overcurrents.any (fun chunkOc => (chunkOc.lookup ch).getD false)

/-- Status assignment of `_process_data` for one chunk's reduced currents of
one channel: all 2 when the (chunk-aggregated) overcurrent flag is set, else
0 for `abs(i) <= i_threshold` and 1 above. -/
def chunkStatuses (overc : Bool) (iThreshold : ℚ) (currents : List ℚ) : List ℕ :=
  if overc then currents.map (fun _ => 2)
  else currents.map (fun i => if |i| ≤ iThreshold then 0 else 1)

/-- Statuses of all of one channel's points, chunk by chunk, as `_process_data`
produces them (the aggregated flag is consulted in every chunk). -/
def channelStatuses (overcurrents : List (List (ℕ × Bool))) (iThreshold : ℚ)
    (ch : ℕ) (chunkCurrents : List (List ℚ)) : List ℕ :=
  chunkCurrents.flatMap (chunkStatuses (channelOvercurrent overcurrents ch) iThreshold)

/-- Modelled from the spec: the status rule as the claim states it, with each
point consulting only its own chunk's recorded flag.  Used to compare the
code's behaviour against the claim. -/
def claimedStatuses (overcurrents : List (List (ℕ × Bool))) (iThreshold : ℚ)
    (ch : ℕ) (chunkCurrents : List (List ℚ)) : List ℕ :=
  (overcurrents.zip chunkCurrents).flatMap
    (fun p => chunkStatuses ((p.1.lookup ch).getD false) iThreshold p.2)

/-! ### External-calibration interpolants (`use_external_calibration`)

`scipy.interpolate.interp1d(kind="linear", bounds_error=False)` over a table
sorted by x.  With `fill_value="extrapolate"` values outside the table domain
lie on the line through the first (resp. last) two table points; with
`fill_value=(lo, hi)` they are replaced by `lo` below and `hi` above.  The
'meas'-kind interpolants and the source readback interpolants extrapolate; the
source-voltage setpoint interpolant uses `fill_value=(0, 5)`. -/

/-- The line through `(x1, y1)` and `(x2, y2)` evaluated at `t`. -/
def interpSeg (x1 y1 x2 y2 t : ℚ) : ℚ :=
  y1 + (y2 - y1) * (t - x1) / (x2 - x1)

/-- Piecewise-linear interpolation over the table `p1 :: p2 :: rest` with
linear extrapolation from the two boundary segments. -/
def interpCore (p1 p2 : ℚ × ℚ) : List (ℚ × ℚ) → ℚ → ℚ
  | [], t => interpSeg p1.1 p1.2 p2.1 p2.2 t
  | q :: rest, t =>
      if t ≤ p2.1 then interpSeg p1.1 p1.2 p2.1 p2.2 t
      else interpCore p2 q rest t

/-- The largest table x value. -/
def lastX (p2 : ℚ × ℚ) (rest : List (ℚ × ℚ)) : ℚ :=
  ((p2 :: rest).getLast (by simp)).1

/-- Interpolation with constant fill values outside the table domain
(`fill_value=(lo, hi)`). -/
def interpClamped (lo hi : ℚ) (p1 p2 : ℚ × ℚ) (rest : List (ℚ × ℚ)) (t : ℚ) : ℚ :=
  if t < p1.1 then lo
  else if lastX p2 rest < t then hi
  else interpCore p1 p2 rest t

/-- A 'meas'-kind interpolant built by `use_external_calibration`: table points
are `(smu, dmm)` pairs, extrapolating linearly outside the data domain. -/
def measInterpolant (p1 p2 : ℚ × ℚ) (rest : List (ℚ × ℚ)) : ℚ → ℚ :=
  interpCore p1 p2 rest

/-- The source-voltage setpoint interpolant (`f_int_set` for `source_v`):
table points are `(dmm, set)` pairs with `fill_value = (0, 5)`. -/
def sourceVSetInterpolant (p1 p2 : ℚ × ℚ) (rest : List (ℚ × ℚ)) : ℚ → ℚ :=
  interpClamped 0 5 p1 p2 rest

/-- The table's x values are strictly increasing. -/
def TableSorted (p1 p2 : ℚ × ℚ) (rest : List (ℚ × ℚ)) : Prop :=
  (p1 :: p2 :: rest).Chain' (fun p q => p.1 < q.1)

/-- The last two table points (the segment used for extrapolation above the
data domain). -/
def lastTwo (p1 p2 : ℚ × ℚ) : List (ℚ × ℚ) → (ℚ × ℚ) × (ℚ × ℚ)
  | [] => (p1, p2)
  | q :: rest => lastTwo p2 q rest

/-! ### Channel-mapping inversion (`invert_channels`)

State touched by `invert_channels`: the channel mapping, the channel settings,
the inverted flag, and (for the frame claim) the enabled-output and
needs-reset caches.  Mapping and settings are association lists keyed by the
logical channel number; the payload types are abstract.  When the requested
inverted state differs from the current one, every key `ch` is rebuilt as
`abs(ch - max_ch)`; the settings dictionary is rebuilt over the same key set
(the code iterates the mapping's keys and looks each one up in the settings
dictionary, whose key set is identical); otherwise the call only warns. -/

structure InvState (α β : Type) where
  channelMapping : List (ℕ × α)
  channelSettings : List (ℕ × β)
  channelsInverted : Bool
  enabledCache : List (ℕ × Bool)
  resetCache : List (ℕ × Bool)

/-- `max(self._channel_mapping.keys())` (the code would raise on an empty
mapping; theorems assume the mapping nonempty). -/
def maxKey (l : List (ℕ × α)) : ℕ :=
  l.foldl (fun m p => max m p.1) 0

/-- `abs(ch - max_ch)` on Python integers. -/
def invertKey (maxCh ch : ℕ) : ℕ := ((ch : ℤ) - (maxCh : ℤ)).natAbs

/-- `invert_channels(inverted)`.  Returns the new state and whether the call
warned instead of changing anything (both no-change branches warn). -/
def invertChannels (s : InvState α β) (inverted : Bool) : InvState α β × Bool :=
  if s.channelsInverted = inverted then
    (s, true)
  else
    let maxCh := maxKey s.channelMapping
    ({ s with
        channelMapping := s.channelMapping.map (fun p => (invertKey maxCh p.1, p.2)),
        channelSettings := s.channelSettings.map (fun p => (invertKey maxCh p.1, p.2)),
        channelsInverted := inverted }, false)

/-- A concrete three-channel state exercising `invert_channels` (payloads are
numeric stand-ins for the mapping/settings dictionaries). -/
def invStateA : InvState ℕ ℕ where
  channelMapping := [(0, 10), (1, 11), (2, 12)]
  channelSettings := [(0, 20), (1, 21), (2, 22)]
  channelsInverted := false
  enabledCache := [(0, true)]
  resetCache := [(1, false)]

/-- A concrete two-channel state exercising the `invert_channels` frame
property. -/
def invStateB : InvState ℕ ℕ where
  channelMapping := [(0, 10), (1, 11)]
  channelSettings := [(0, 20), (1, 21)]
  channelsInverted := false
  enabledCache := [(0, true), (1, false)]
  resetCache := [(0, false), (1, true)]

/-! ### Needs-reset bookkeeping (`_reset_boards`, `_update_reset_cache`)

Per-channel hardware mode plus the two caches.  `_reset_boards(channels)`
resets the boards of the requested channels whose needs-reset flag is set and
clears those flags (the vendor control transfer and the reconnect that follows
a successful detach are hardware effects outside this model).
`_update_reset_cache` runs over ALL mapped channels and sets each flag exactly
when the channel's current hardware mode is high impedance.  `_enable_output`
with `enable=True` runs `_reset_boards` first, drives the requested channels
into their source mode, performs the one-sample latch acquisition, then calls
`_update_reset_cache`; with `enable=False` it only switches the requested
channels to the matching high-impedance mode and never touches the reset
cache.  `_measure` runs `_reset_boards` only when at least one requested
channel is NOT in high-impedance mode, acquires, and ends with
`_update_reset_cache`. -/

/-- pysmu output modes used by the engine. -/
inductive Mode where
  | hiZ | hiZSplit | svmi | svmiSplit | simv | simvSplit
deriving DecidableEq, Repr

/-- Whether a mode is one of the two high-impedance modes. -/
def Mode.isHiZ : Mode → Bool
  | .hiZ => true
  | .hiZSplit => true
  | _ => false

/-- Source mode selected by `configure_dc`. -/
inductive SrcMode where
  | v | i
deriving DecidableEq, Repr

/-- Mode written by `_write_dc_values` for a channel's four-wire setting and
DC source mode. -/
def targetMode (fourWire : Bool) (sm : SrcMode) : Mode :=
  if fourWire then (match sm with | .v => .svmiSplit | .i => .simvSplit)
  else (match sm with | .v => .svmi | .i => .simv)

/-- Mode written by the disable branch of `_enable_output`. -/
def offMode (fourWire : Bool) : Mode :=
  if fourWire then .hiZSplit else .hiZ

/-- Engine state for the reset-flag claims: `nchan` mapped channels
(`channel_mapping` keys `0 .. nchan - 1`), the per-channel hardware mode and
settings, and the two caches. -/
structure HwState where
  nchan : ℕ
  mode : ℕ → Mode
  fourWire : ℕ → Bool
  dcMode : ℕ → SrcMode
  resetCache : ℕ → Bool
  enabledCache : ℕ → Bool

/-- `_reset_boards(channels)`: clears the needs-reset flag of the requested
channels that had it set; returns those channels (the ones whose board the
firmware workaround actually resets). -/
def resetBoards (s : HwState) (channels : List ℕ) : HwState × List ℕ :=
  let rs := channels.filter (fun ch => s.resetCache ch)
  ({ s with resetCache := fun ch => if rs.contains ch then false else s.resetCache ch },
   rs)

/-- `_update_reset_cache`: every mapped channel's flag becomes "mode is high
impedance". -/
def updateResetCache (s : HwState) : HwState :=
  { s with resetCache := fun ch => if ch < s.nchan then (s.mode ch).isHiZ
                                   else s.resetCache ch }

/-- `_enable_output(enable, channels)`.  Returns the new state and the list of
channels whose board was reset before the channel was touched. -/
def enableOutputStep (s : HwState) (enable : Bool) (channels : List ℕ) :
    HwState × List ℕ :=
  if enable && !channels.isEmpty then
    let p := resetBoards s channels
    let s1 := p.1
    let s2 := { s1 with
      mode := fun ch => if channels.contains ch
                        then targetMode (s1.fourWire ch) (s1.dcMode ch)
                        else s1.mode ch }
    let s3 := updateResetCache s2
    ({ s3 with enabledCache := fun ch => if channels.contains ch then true
                                         else s3.enabledCache ch }, p.2)
  else
    let s1 := { s with
      mode := fun ch => if channels.contains ch then offMode (s.fourWire ch)
                        else s.mode ch }
    ({ s1 with enabledCache := fun ch => if channels.contains ch then enable
                                         else s1.enabledCache ch }, [])

/-- The reset/flag effects of `_measure` for a DC acquisition (channel modes
are not changed by the acquisition itself). -/
def measureStep (s : HwState) (channels : List ℕ) : HwState × List ℕ :=
  let nonHiZ := channels.filter (fun ch => !(s.mode ch).isHiZ)
  let p := if !nonHiZ.isEmpty then resetBoards s channels else (s, [])
  (updateResetCache p.1, p.2)

/-- A concrete one-channel state with the output sourcing voltage and no
pending reset. -/
def hwStateOn : HwState where
  nchan := 1
  mode := fun _ => .svmi
  fourWire := fun _ => false
  dcMode := fun _ => .v
  resetCache := fun _ => false
  enabledCache := fun _ => true

end M1K

namespace M1K.OldRev

/-! ### Dual sweeps in the earlier revision (`src/m1k/m1k.py`)

`configure_sweep(start, stop, points, dual, source_mode)` stores the linearly
spaced sweep list (no range offset for `v_range = 5`, internal calibration).
`_measure_noncontinuous` expands it, chunks it exactly as the current revision
does, runs the forward scan chunk by chunk, and for a dual sweep runs a second
scan in which `samples.reverse()` — an in-place reversal — is executed at the
top of EVERY chunk iteration, so across the second scan the list alternates
between reversed and forward order.  `_process_data` reduces every
`samples_per_datum` window of the concatenated raw stream to one point. -/

/-- The sweep list built by `configure_sweep`:
`step = (stop - start) / (points - 1)`, values `x * step + start`. -/
def sweepValues (start stop : ℚ) (points : ℕ) : List ℚ :=
  (List.range points).map
    (fun (x : ℕ) => (x : ℚ) * ((stop - start) / ((points : ℚ) - 1)) + start)

/-- The forward scan: chunks `0 .. k - 1` of `samples`, concatenated in
order. -/
def scanEmit (samples : List ℚ) (spc : ℕ) : ℕ → List ℚ
  | 0 => []
  | k + 1 => scanEmit samples spc k ++ chunkSlice samples spc k

/-- The second scan of a dual sweep: state after `k` chunk iterations.  Each
iteration first reverses the current sample list in place, then writes chunk
`k` of it.  Returns (current list, samples written so far). -/
def dualScanEmit (samples : List ℚ) (spc : ℕ) : ℕ → List ℚ × List ℚ
  | 0 => (samples, [])
  | k + 1 =>
      let p := dualScanEmit samples spc k
      let cur := p.1.reverse
      (cur, p.2 ++ chunkSlice cur spc k)

/-- The complete raw-sample stream one channel's sub-channel A receives over a
dual sweep (`dual=True`): the forward scan followed by the second scan, with
the chunk geometry of `_measure_noncontinuous`. -/
def dualSweepWritten (values : List ℚ) (spd maxbuf : ℕ) : List ℚ :=
  let samples := expandSamples values spd
  let total := samples.length
  let spc := samplesPerChunk total maxbuf spd
  let nc := (total + spc - 1) / spc
  scanEmit samples spc nc ++ (dualScanEmit samples spc nc).2

/-- The per-datum setpoint of each `samples_per_datum` window of a raw stream:
`_process_data` reduces the window starting at every multiple of
`samples_per_datum` to one returned point. -/
def windowValues (spd : ℕ) : List ℚ → List ℚ
  | [] => []
  | x :: xs => x :: windowValues spd (xs.drop (spd - 1))
termination_by l => l.length
decreasing_by
  simp only [List.length_cons, List.length_drop]
  omega

end M1K.OldRev

namespace M1K

/-! ## Helper lemmas -/

theorem retryRun_opCalls_le {α : Type} (c : Fault → Bool) (op : ℕ → Attempt α)
    (a r : ℕ) :
    (retryRun c op a r).opCalls ≤ r ∧
    (1 ≤ r → (retryRun c op a r).reconnects + 1 = (retryRun c op a r).opCalls) := by
  induction r generalizing a with
  | zero => simp [retryRun]
  | succ n ih =>
      cases n with
      | zero => cases h : op a <;> simp [retryRun, h]
      | succ m =>
          cases h : op a with
          | ok v => simp [retryRun, h]
          | raises f =>
              by_cases hc : c f = true
              · have h2 := ih (a + 1)
                simp only [retryRun, h, hc, if_true]
                constructor
                · omega
                · intro _
                  omega
              · simp [retryRun, h, hc]

theorem runAssigns_pres {sr : ℚ} {P : TimingState → Prop}
    (hpres : ∀ s a, P s → P (applyAssign sr s a)) (l : List TimingAssign)
    (s : TimingState) (h : P s) : P (runAssigns sr s l) := by
  induction l generalizing s with
  | nil => simpa [runAssigns] using h
  | cons a t ih =>
      simpa [runAssigns] using ih (applyAssign sr s a) (hpres s a h)

theorem runAssigns_est {sr : ℚ} {P : TimingState → Prop} (a0 : TimingAssign)
    (hpres : ∀ s a, P s → P (applyAssign sr s a))
    (hest : ∀ s, P (applyAssign sr s a0)) (l : List TimingAssign)
    (s0 : TimingState) (ha : a0 ∈ l) : P (runAssigns sr s0 l) := by
  induction l generalizing s0 with
  | nil => cases ha
  | cons b t ih =>
      rcases List.mem_cons.mp ha with hb | hb
      · subst hb
        have h1 : P (applyAssign sr s0 a0) := hest s0
        simpa [runAssigns] using
          runAssigns_pres hpres t (applyAssign sr s0 a0) h1
      · simpa [runAssigns] using ih (applyAssign sr s0 b) hb

theorem applyAssign_pres_nplc (sr : ℚ) (s : TimingState) (a : TimingAssign)
    (h : NplcConsistent sr s) : NplcConsistent sr (applyAssign sr s a) := by
  rcases h with ⟨n, hn, hns, hspd⟩
  cases a with
  | plf p =>
      refine ⟨n, ?_, ?_, ?_⟩ <;> simp [applyAssign, setPlf, hn]
      ring_nf
  | nplc m =>
      refine ⟨m, ?_, ?_, ?_⟩ <;> simp [applyAssign, setNplc, hn]
      ring_nf
  | settlingDelay d =>
      refine ⟨n, ?_, ?_, ?_⟩ <;> simp [applyAssign, setSettlingDelay, hn, hns]

theorem applyAssign_pres_settle (sr : ℚ) (s : TimingState) (a : TimingAssign)
    (h : SettleConsistent sr s) : SettleConsistent sr (applyAssign sr s a) := by
  rcases h with ⟨d, hd, hds⟩
  cases a with
  | plf p =>
      cases hnp : s.nplc <;>
        exact ⟨d, by simp [applyAssign, setPlf, hnp, hd], by simp [applyAssign, setPlf, hnp, hds]⟩
  | nplc m => exact ⟨d, by simp [applyAssign, setNplc, hd], by simp [applyAssign, setNplc, hds]⟩
  | settlingDelay e => exact ⟨e, by simp [applyAssign, setSettlingDelay], by simp [applyAssign, setSettlingDelay]⟩

theorem setNplc_establishes (sr : ℚ) (s : TimingState) (n : ℚ) :
    NplcConsistent sr (setNplc sr s n) := by
  refine ⟨n, ?_, ?_, ?_⟩ <;> simp [setNplc]
  ring_nf

theorem setSettling_establishes (sr : ℚ) (s : TimingState) (d : ℚ) :
    SettleConsistent sr (setSettlingDelay sr s d) :=
  ⟨d, by simp [setSettlingDelay], by simp [setSettlingDelay]⟩

theorem foldl_max_init_le {α : Type} (l : List (ℕ × α)) (b : ℕ) :
    b ≤ l.foldl (fun m q => max m q.1) b := by
  induction l generalizing b with
  | nil => simp
  | cons q t ih => exact le_trans (le_max_left b q.1) (ih (max b q.1))

theorem foldl_max_mem_le {α : Type} (l : List (ℕ × α)) (p : ℕ × α)
    (hp : p ∈ l) : ∀ b, p.1 ≤ l.foldl (fun m q => max m q.1) b := by
  induction l with
  | nil => cases hp
  | cons q t ih =>
      intro b
      rcases List.mem_cons.mp hp with hq | hq
      · subst hq
        exact le_trans (le_max_right b p.1) (foldl_max_init_le t (max b p.1))
      · exact ih hq (max b q.1)

theorem mem_le_maxKey {α : Type} (l : List (ℕ × α)) (p : ℕ × α) (hp : p ∈ l) :
    p.1 ≤ maxKey l :=
  foldl_max_mem_le l p hp 0

theorem invertKey_eq_sub {maxCh i : ℕ} (h : i ≤ maxCh) :
    invertKey maxCh i = maxCh - i := by
  simp only [invertKey]
  omega

/-! ## Claim theorems -/

/-- Claim C9: with a valid source mode and at least one mapped channel,
`configure_sweep` with `points = 1` raises `ZeroDivisionError` from the step
computation `(stop - start) / (points - 1)`. -/
theorem c9_configure_sweep_one_point_zero_division (channels : List ℕ)
    (start stop : ℚ) (sourceMode : String) (hne : channels ≠ [])
    (hmode : sourceMode = "v" ∨ sourceMode = "i") :
    configureSweep channels start stop 1 sourceMode = .error .zeroDivision := by
  cases channels with
  | nil => cases hne rfl
  | cons ch rest =>
      simp only [configureSweep, hmode, pyDiv, if_pos, List.foldlM_cons]
      simp [pyDiv]
      rfl

/-- Witness for C9 at a concrete input. -/
theorem c9_configure_sweep_one_point_zero_division_witness :
    ([0] : List ℕ) ≠ [] ∧
    configureSweep [0] 0 (5 : ℚ) 1 "v" = .error .zeroDivision :=
  ⟨by simp, c9_configure_sweep_one_point_zero_division [0] 0 5 "v" (by simp) (Or.inl rfl)⟩

/-- Claim C4: `measure` retries `pysmu.SessionError`, `pysmu.DeviceError` and
`ZeroDivisionError` and `enable_output` retries the first two, both with at
most 3 attempts and a full reconnect between consecutive attempts; when every
attempt fails, the last underlying fault is re-raised unchanged. -/
theorem c4_retry_bounded_last_fault_reraised {α : Type}
    (opM opE : ℕ → Attempt α) (f g : ℕ → Fault)
    (hM : ∀ i, 1 ≤ i → i ≤ 3 → opM i = .raises (f i) ∧ measureCatches (f i) = true)
    (hE : ∀ i, 1 ≤ i → i ≤ 3 → opE i = .raises (g i) ∧ enableOutputCatches (g i) = true) :
    (∀ op : ℕ → Attempt α,
      (measureRetry op).opCalls ≤ 3 ∧
      (measureRetry op).reconnects + 1 = (measureRetry op).opCalls ∧
      (enableOutputRetry op).opCalls ≤ 3 ∧
      (enableOutputRetry op).reconnects + 1 = (enableOutputRetry op).opCalls) ∧
    (measureRetry opM).outcome = .error (f 3) ∧ (measureRetry opM).opCalls = 3 ∧
    (enableOutputRetry opE).outcome = .error (g 3) ∧ (enableOutputRetry opE).opCalls = 3 ∧
    (∀ c, measureCatches (.sessionError c) = true ∧
      measureCatches (.deviceError c) = true ∧
      measureCatches (.zeroDivisionError c) = true ∧
      enableOutputCatches (.sessionError c) = true ∧
      enableOutputCatches (.deviceError c) = true ∧
      enableOutputCatches (.zeroDivisionError c) = false) := by
  obtain ⟨hM1, hMc1⟩ := hM 1 (by omega) (by omega)
  obtain ⟨hM2, hMc2⟩ := hM 2 (by omega) (by omega)
  obtain ⟨hM3, hMc3⟩ := hM 3 (by omega) (by omega)
  obtain ⟨hE1, hEc1⟩ := hE 1 (by omega) (by omega)
  obtain ⟨hE2, hEc2⟩ := hE 2 (by omega) (by omega)
  obtain ⟨hE3, hEc3⟩ := hE 3 (by omega) (by omega)
  refine ⟨?_, ?_, ?_, ?_, ?_, ?_⟩
  · intro op
    refine ⟨(retryRun_opCalls_le measureCatches op 1 3).1,
      (retryRun_opCalls_le measureCatches op 1 3).2 (by omega),
      (retryRun_opCalls_le enableOutputCatches op 1 3).1,
      (retryRun_opCalls_le enableOutputCatches op 1 3).2 (by omega)⟩
  · simp [measureRetry, retryRun, hM1, hM2, hM3, hMc1, hMc2, hMc3]
  · simp [measureRetry, retryRun, hM1, hM2, hM3, hMc1, hMc2, hMc3]
  · simp [enableOutputRetry, retryRun, hE1, hE2, hE3, hEc1, hEc2, hEc3]
  · simp [enableOutputRetry, retryRun, hE1, hE2, hE3, hEc1, hEc2, hEc3]
  · intro c
    simp [measureCatches, enableOutputCatches]

/-- Witness for C4: all three attempts fail with session errors (measure) and
device errors (enable_output); the third fault is re-raised. -/
theorem c4_retry_bounded_last_fault_reraised_witness :
    (measureRetry (α := ℕ) (fun i => .raises (.sessionError i))).outcome =
      .error (.sessionError 3) ∧
    (enableOutputRetry (α := ℕ) (fun i => .raises (.deviceError i))).outcome =
      .error (.deviceError 3) := by
  have h := c4_retry_bounded_last_fault_reraised (α := ℕ)
    (fun i => .raises (.sessionError i)) (fun i => .raises (.deviceError i))
    (fun i => .sessionError i) (fun i => .deviceError i)
    (fun i _ _ => ⟨rfl, rfl⟩) (fun i _ _ => ⟨rfl, rfl⟩)
  exact ⟨h.2.1, h.2.2.2.1⟩

/-- Claim C3: whatever the order in which `plf`, `nplc` and `settling_delay`
are assigned (each at least once, with nonzero power-line frequencies so that
no Python division fails), `samples_per_datum` afterwards equals
`int((nplc / plf) * sample_rate) + int(settling_delay * sample_rate)` computed
from the latest assigned values. -/
theorem c3_samples_per_datum_order_independent (sr : ℚ) (s0 : TimingState)
    (l : List TimingAssign)
    (hp : ∃ p, TimingAssign.plf p ∈ l)
    (hn : ∃ n, TimingAssign.nplc n ∈ l)
    (hd : ∃ d, TimingAssign.settlingDelay d ∈ l)
    (hplf0 : s0.plf ≠ 0)
    (hplfs : ∀ p, TimingAssign.plf p ∈ l → p ≠ 0) :
    ∃ n d, (runAssigns sr s0 l).nplc = some n ∧
      (runAssigns sr s0 l).settlingDelay = some d ∧
      (runAssigns sr s0 l).samplesPerDatum =
        pyInt (n / (runAssigns sr s0 l).plf * sr) + pyInt (d * sr) := by
  obtain ⟨n0, hn0⟩ := hn
  obtain ⟨d0, hd0⟩ := hd
  have hN : NplcConsistent sr (runAssigns sr s0 l) :=
    runAssigns_est (TimingAssign.nplc n0) (applyAssign_pres_nplc sr)
      (fun s => setNplc_establishes sr s n0) l s0 hn0
  have hS : SettleConsistent sr (runAssigns sr s0 l) :=
    runAssigns_est (TimingAssign.settlingDelay d0) (applyAssign_pres_settle sr)
      (fun s => setSettling_establishes sr s d0) l s0 hd0
  obtain ⟨n, hnn, hns, hspd⟩ := hN
  obtain ⟨d, hdd, hds⟩ := hS
  exact ⟨n, d, hnn, hdd, by rw [hspd, hns, hds]⟩

/-- Witness for C3: assign in the order settling_delay, plf, nplc over a
post-connect state. -/
theorem c3_samples_per_datum_order_independent_witness :
    ∃ n d, (runAssigns 100000
        ⟨50, some (1/10), some (1/200), 200, 500, 700⟩
        [.settlingDelay (1/100), .plf 60, .nplc 1]).nplc = some n ∧
      (runAssigns 100000 ⟨50, some (1/10), some (1/200), 200, 500, 700⟩
        [.settlingDelay (1/100), .plf 60, .nplc 1]).settlingDelay = some d ∧
      (runAssigns 100000 ⟨50, some (1/10), some (1/200), 200, 500, 700⟩
        [.settlingDelay (1/100), .plf 60, .nplc 1]).samplesPerDatum =
        pyInt (n / (runAssigns 100000 ⟨50, some (1/10), some (1/200), 200, 500, 700⟩
          [.settlingDelay (1/100), .plf 60, .nplc 1]).plf * 100000) + pyInt (d * 100000) :=
  c3_samples_per_datum_order_independent 100000 _ _
    ⟨60, by simp⟩ ⟨1, by simp⟩ ⟨1/100, by simp⟩ (by norm_num)
    (by intro p hp; simp at hp; rw [hp]; norm_num)

end M1K

namespace M1K

/-- Claim C7: inverting channels from the non-inverted state remaps every
logical index `i` (in both the mapping and the settings) to `max_index - i`
and flips the inverted flag; a second `invert_channels(True)` only warns and
returns the state entirely unchanged. -/
theorem c7_invert_channels_twice_idempotent {a b : Type} (s : InvState a b)
    (hinv : s.channelsInverted = false) (hne : s.channelMapping ≠ [])
    (hks : ∀ q ∈ s.channelSettings, ∃ x, (q.1, x) ∈ s.channelMapping) :
    ((invertChannels s true).1.channelsInverted = true) ∧
    (∀ i x, (i, x) ∈ s.channelMapping →
      (maxKey s.channelMapping - i, x) ∈ (invertChannels s true).1.channelMapping) ∧
    (∀ i y, (i, y) ∈ s.channelSettings →
      (maxKey s.channelMapping - i, y) ∈ (invertChannels s true).1.channelSettings) ∧
    invertChannels (invertChannels s true).1 true = ((invertChannels s true).1, true) := by
  have hcond : ¬(s.channelsInverted = true) := by simp [hinv]
  refine ⟨?_, ?_, ?_, ?_⟩
  · simp [invertChannels, hcond]
  · intro i x hm
    have hle : i ≤ maxKey s.channelMapping := mem_le_maxKey s.channelMapping (i, x) hm
    have : (invertKey (maxKey s.channelMapping) i, x) ∈
        s.channelMapping.map (fun p => (invertKey (maxKey s.channelMapping) p.1, p.2)) :=
      List.mem_map_of_mem _ hm
    rw [invertKey_eq_sub hle] at this
    simpa [invertChannels, hcond] using this
  · intro i y hsm
    obtain ⟨x, hm⟩ := hks (i, y) hsm
    have hle : i ≤ maxKey s.channelMapping := mem_le_maxKey s.channelMapping (i, x) hm
    have : (invertKey (maxKey s.channelMapping) i, y) ∈
        s.channelSettings.map (fun p => (invertKey (maxKey s.channelMapping) p.1, p.2)) :=
      List.mem_map_of_mem _ hsm
    rw [invertKey_eq_sub hle] at this
    simpa [invertChannels, hcond] using this
  · have hflag : (invertChannels s true).1.channelsInverted = true := by
      simp [invertChannels, hcond]
    generalize hX : (invertChannels s true).1 = X at hflag ⊢
    simp [invertChannels, hflag]

/-- Witness for C7 on a 3-channel state. -/
theorem c7_invert_channels_twice_idempotent_witness :
    ((invertChannels invStateA true).1.channelsInverted = true) ∧
      ((2 : ℕ) - 0, 10) ∈ (invertChannels invStateA true).1.channelMapping := by
  have h := c7_invert_channels_twice_idempotent invStateA rfl (by simp [invStateA])
    (by
      intro q hq
      simp only [invStateA, List.mem_cons, List.not_mem_nil, or_false] at hq
      rcases hq with h0 | h1 | h2
      · exact ⟨10, by rw [h0]; simp [invStateA]⟩
      · exact ⟨11, by rw [h1]; simp [invStateA]⟩
      · exact ⟨12, by rw [h2]; simp [invStateA]⟩)
  refine ⟨h.1, ?_⟩
  have h2 := h.2.1 0 10 (by simp [invStateA])
  simpa [invStateA, maxKey] using h2

/-- Claim C10: when the requested inverted state differs from the current one,
`invert_channels` rebuilds only the channel mapping, the channel settings and
the inverted flag; the enabled-output cache and the needs-reset cache are
returned unchanged, entry for entry (no re-indexing). -/
theorem c10_invert_channels_frame {a b : Type} (s : InvState a b) (v : Bool)
    (h : s.channelsInverted ≠ v) :
    ((invertChannels s v).1.enabledCache = s.enabledCache) ∧
    ((invertChannels s v).1.resetCache = s.resetCache) ∧
    ((invertChannels s v).1.channelsInverted = v) ∧
    ((invertChannels s v).1.channelMapping =
      s.channelMapping.map (fun p => (invertKey (maxKey s.channelMapping) p.1, p.2))) ∧
    ((invertChannels s v).1.channelSettings =
      s.channelSettings.map (fun p => (invertKey (maxKey s.channelMapping) p.1, p.2))) := by
  simp [invertChannels, h]

/-- Witness for C10 on a 2-channel state. -/
theorem c10_invert_channels_frame_witness :
    ((invertChannels invStateB true).1.enabledCache = [(0, true), (1, false)]) ∧
    ((invertChannels invStateB true).1.resetCache = [(0, false), (1, true)]) := by
  have h := c10_invert_channels_frame invStateB true (by simp [invStateB])
  exact ⟨h.1, h.2.1⟩

end M1K

namespace M1K

theorem expand_length (vs : List ℚ) (spd : ℕ) :
    (expandSamples vs spd).length = vs.length * spd := by
  induction vs with
  | nil => simp [expandSamples]
  | cons v t ih =>
      simp only [expandSamples, List.flatMap_cons, List.length_append,
        List.length_replicate, List.length_cons] at *
      rw [ih]
      ring

theorem expand_drop (vs : List ℚ) (spd k : ℕ) :
    (expandSamples vs spd).drop (k * spd) = expandSamples (vs.drop k) spd := by
  induction k generalizing vs with
  | zero => simp
  | succ m ih =>
      cases vs with
      | nil => simp [expandSamples]
      | cons v t =>
          have hlen : (m + 1) * spd = spd + m * spd := by ring
          simp only [expandSamples, List.flatMap_cons, hlen, List.drop_add,
            List.drop_append_of_le_length (le_of_eq (List.length_replicate spd v).symm),
            List.drop_length, List.drop_replicate] at *
          simpa [expandSamples, Nat.sub_self] using ih t

theorem expand_take (vs : List ℚ) (spd k : ℕ) :
    (expandSamples vs spd).take (k * spd) = expandSamples (vs.take k) spd := by
  induction k generalizing vs with
  | zero => simp [expandSamples]
  | succ m ih =>
      cases vs with
      | nil => simp [expandSamples]
      | cons v t =>
          have hlen : (m + 1) * spd = spd + m * spd := by ring
          rw [expandSamples, List.flatMap_cons, hlen, List.take_add]
          rw [List.take_append_of_le_length (le_of_eq (List.length_replicate spd v).symm)]
          rw [List.take_replicate, min_self,
            List.drop_append_of_le_length (le_of_eq (List.length_replicate spd v).symm),
            List.drop_replicate, Nat.sub_self]
          simpa [expandSamples] using congrArg (List.replicate spd v ++ ·) (ih t)

theorem flatMap_chunkSlice (l : List ℚ) (spc : ℕ) (k : ℕ) :
    (List.range k).flatMap (fun i => chunkSlice l spc i) = l.take (k * spc) := by
  induction k with
  | zero => simp
  | succ m ih =>
      rw [List.range_succ, List.flatMap_append, ih]
      simp only [List.flatMap_cons, List.flatMap_nil, List.append_nil, chunkSlice]
      rw [← List.take_add]
      congr 1
      ring

theorem ceil_div_mul_ge (total : ℕ) {spc : ℕ} (h : 0 < spc) :
    total ≤ (total + spc - 1) / spc * spc := by
  have hd := Nat.div_add_mod (total + spc - 1) spc
  have hm : (total + spc - 1) % spc < spc := Nat.mod_lt _ h
  set q := (total + spc - 1) / spc with hq
  set r := (total + spc - 1) % spc with hr
  have : spc * q + r = total + spc - 1 := hd
  set m := q * spc with hmq
  have hqm : spc * q = m := by rw [hmq]; ring
  omega

theorem foldl_max_len_init_le (f : List ℚ → ℕ) (l : List (List ℚ)) :
    ∀ b : ℕ, b ≤ l.foldl (fun m x => max m (f x)) b := by
  induction l with
  | nil => simp
  | cons x t ih =>
      intro b
      exact le_trans (le_max_left b (f x)) (ih (max b (f x)))

theorem foldl_max_len_mem_le (f : List ℚ → ℕ) (l : List (List ℚ)) (x : List ℚ)
    (hx : x ∈ l) : ∀ b : ℕ, f x ≤ l.foldl (fun m y => max m (f y)) b := by
  induction l with
  | nil => cases hx
  | cons y t ih =>
      intro b
      rcases List.mem_cons.mp hx with hy | hy
      · subst hy
        exact le_trans (le_max_right b (f x)) (foldl_max_len_init_le f t (max b (f x)))
      · exact ih hy (max b (f y))

theorem le_numSamplesRequested (chValues : List (List ℚ)) (spd : ℕ)
    (vs : List ℚ) (h : vs ∈ chValues) :
    (expandSamples vs spd).length ≤ numSamplesRequested chValues spd :=
  foldl_max_len_mem_le (fun x => (expandSamples x spd).length) chValues vs h 0

/-- Claim C1: when the maximum expanded sample count over the requested
channels exceeds the board buffer, `_measure` raises the buffer-overflow
`ValueError` before the acquisition loop if chunking is disallowed; with
chunking allowed, the acquisition is split into sequential chunks, each of
which writes, for every channel, the expansion of `maxbuf / spd` whole
consecutive configured values — so every chunk is a whole number of
`samples_per_datum` windows, fits in the buffer, never splits a datum's
window, and the chunks concatenate to the full expanded request. -/
theorem c1_buffer_overflow_and_chunking (chValues : List (List ℚ)) (spd : ℕ)
    (h1 : 0 < spd) (h2 : spd ≤ maximumBufferSize)
    (hover : numSamplesRequested chValues spd > maximumBufferSize) :
    measurePlan chValues spd false = .error .valueError ∧
    measurePlan chValues spd true =
      .ok ((List.range
          ((numSamplesRequested chValues spd + maximumBufferSize / spd * spd - 1) /
            (maximumBufferSize / spd * spd))).map
        (fun i => chValues.map
          (fun vs => expandSamples
            ((vs.drop (i * (maximumBufferSize / spd))).take (maximumBufferSize / spd))
            spd))) ∧
    maximumBufferSize / spd * spd ≤ maximumBufferSize ∧
    0 < maximumBufferSize / spd ∧
    (∀ vs ∈ chValues,
      (List.range
          ((numSamplesRequested chValues spd + maximumBufferSize / spd * spd - 1) /
            (maximumBufferSize / spd * spd))).flatMap
        (fun i => chunkSlice (expandSamples vs spd) (maximumBufferSize / spd * spd) i) =
      expandSamples vs spd) := by
  have hdpw : 0 < maximumBufferSize / spd :=
    (Nat.one_le_div_iff h1).mpr h2
  have hspc : 0 < maximumBufferSize / spd * spd := Nat.mul_pos hdpw h1
  have hnotle : ¬(numSamplesRequested chValues spd ≤ maximumBufferSize) := by omega
  have hspc_eq : samplesPerChunk (numSamplesRequested chValues spd) maximumBufferSize spd =
      maximumBufferSize / spd * spd := by
    simp [samplesPerChunk, hnotle]
  refine ⟨?_, ?_, Nat.div_mul_le_self _ _, hdpw, ?_⟩
  · simp [measurePlan, hover]
  · simp only [measurePlan, hspc_eq]
    rw [if_neg (by simp), if_neg (by omega)]
    congr 1
    apply List.map_congr_left
    intro i _
    apply List.map_congr_left
    intro vs _
    show chunkSlice (expandSamples vs spd) (maximumBufferSize / spd * spd) i = _
    rw [chunkSlice, show i * (maximumBufferSize / spd * spd) =
      i * (maximumBufferSize / spd) * spd by ring, expand_drop,
      show maximumBufferSize / spd * spd = maximumBufferSize / spd * spd from rfl,
      expand_take]
  · intro vs hvs
    rw [flatMap_chunkSlice]
    apply List.take_of_length_le
    calc (expandSamples vs spd).length
        ≤ numSamplesRequested chValues spd := le_numSamplesRequested chValues spd vs hvs
      _ ≤ _ := ceil_div_mul_ge _ hspc

/-- Witness for C1: two configured values expanded by 60000 samples each
overflow the 100000-sample buffer. -/
theorem c1_buffer_overflow_and_chunking_witness :
    (0 < 60000 ∧ 60000 ≤ maximumBufferSize ∧
      numSamplesRequested [[(0 : ℚ), 1]] 60000 > maximumBufferSize) ∧
    measurePlan [[(0 : ℚ), 1]] 60000 false = .error .valueError := by
  have hover : numSamplesRequested [[(0 : ℚ), 1]] 60000 > maximumBufferSize := by
    simp [numSamplesRequested, expand_length, maximumBufferSize]
  refine ⟨⟨by norm_num, by simp [maximumBufferSize], hover⟩, ?_⟩
  exact (c1_buffer_overflow_and_chunking [[(0 : ℚ), 1]] 60000 (by norm_num)
    (by simp [maximumBufferSize]) hover).1

end M1K

namespace M1K

theorem lookup_map_const {b : Bool} (channels : List ℕ) (ch : ℕ)
    (hch : ch ∈ channels) :
    (channels.map (fun c => (c, b))).lookup ch = some b := by
  induction channels with
  | nil => cases hch
  | cons c t ih =>
      by_cases he : ch = c
      · subst he
        simp [List.lookup]
      · rcases List.mem_cons.mp hch with h | h
        · exact absurd h he
        · have hbe : (ch == c) = false := beq_eq_false_iff_ne.mpr he
          simpa [List.lookup, hbe] using ih h

theorem channelOvercurrent_recorded (channels : List ℕ) (devOf : ℕ → ℕ)
    (chunkDevFlags : List (ℕ → Bool)) (ch lastCh : ℕ)
    (hch : ch ∈ channels) (hlast : channels.getLast? = some lastCh) :
    channelOvercurrent (recordOvercurrents channels devOf chunkDevFlags) ch =
      chunkDevFlags.any (fun f => f (devOf lastCh)) := by
  have he : ∀ f : ℕ → Bool,
      ((recordChunkOvercurrents channels devOf f).lookup ch).getD false =
        f (devOf lastCh) := by
    intro f
    simp only [recordChunkOvercurrents, hlast]
    rw [lookup_map_const channels ch hch]
    rfl
  induction chunkDevFlags with
  | nil => rfl
  | cons f t ih =>
      simp only [channelOvercurrent, recordOvercurrents, List.map_cons,
        List.any_cons] at ih ⊢
      rw [he f, ih]

/-- Counterexample for C2: one channel on one board, two chunks, the board
overcurrent flag set only while the second chunk was acquired, currents all
zero: the code tags the first chunk's point 2 as well, while the claim as
stated would tag it 0. -/
theorem c2_status_per_chunk_counterexample :
    channelStatuses
        (recordOvercurrents [0] (fun d => d) [fun _ => false, fun _ => true])
        (1 / 5) 0 [[0], [0]] = [2, 2] ∧
    claimedStatuses
        (recordOvercurrents [0] (fun d => d) [fun _ => false, fun _ => true])
        (1 / 5) 0 [[0], [0]] = [0, 2] ∧
    channelStatuses
        (recordOvercurrents [0] (fun d => d) [fun _ => false, fun _ => true])
        (1 / 5) 0 [[0], [0]] ≠
      claimedStatuses
        (recordOvercurrents [0] (fun d => d) [fun _ => false, fun _ => true])
        (1 / 5) 0 [[0], [0]] := by
  have h1 : channelStatuses
      (recordOvercurrents [0] (fun d => d) [fun _ => false, fun _ => true])
      (1 / 5) 0 [[0], [0]] = [2, 2] := rfl
  have h2 : claimedStatuses
      (recordOvercurrents [0] (fun d => d) [fun _ => false, fun _ => true])
      (1 / 5) 0 [[0], [0]] = [0, 2] := by
    norm_num [claimedStatuses, recordOvercurrents, recordChunkOvercurrents,
      chunkStatuses, List.lookup]
  refine ⟨h1, h2, ?_⟩
  rw [h1, h2]
  simp

/-- Claim C2 (amended): a returned point's status is 2 exactly when the
overcurrent flag recorded for its channel — which `_measure` reads from the
board of the LAST requested channel — was set after ANY chunk of the
acquisition; otherwise the status is 1 when `|current| > i_threshold` and 0
otherwise. -/
theorem c2_status_overcurrent_amended (channels : List ℕ) (devOf : ℕ → ℕ)
    (chunkDevFlags : List (ℕ → Bool)) (iThreshold : ℚ) (ch lastCh : ℕ)
    (hch : ch ∈ channels) (hlast : channels.getLast? = some lastCh)
    (chunkCurrents : List (List ℚ)) :
    channelStatuses (recordOvercurrents channels devOf chunkDevFlags) iThreshold
        ch chunkCurrents =
      if chunkDevFlags.any (fun f => f (devOf lastCh)) then
        chunkCurrents.flatMap (fun cur => cur.map (fun _ => 2))
      else
        chunkCurrents.flatMap
          (fun cur => cur.map (fun i => if |i| ≤ iThreshold then 0 else 1)) := by
  rw [channelStatuses,
    channelOvercurrent_recorded channels devOf chunkDevFlags ch lastCh hch hlast]
  by_cases hany : chunkDevFlags.any (fun f => f (devOf lastCh)) = true
  · have hfun : chunkStatuses true iThreshold = fun cur => cur.map (fun _ => 2) := by
      funext cur
      simp [chunkStatuses]
    simp only [hany, if_true, hfun]
  · simp only [Bool.not_eq_true] at hany
    have hfun : chunkStatuses false iThreshold =
        fun cur => cur.map (fun i => if |i| ≤ iThreshold then 0 else 1) := by
      funext cur
      simp [chunkStatuses]
    simp only [hany, Bool.false_eq_true, if_false, hfun]

/-- Witness for C2's amended statement at the counterexample input. -/
theorem c2_status_overcurrent_amended_witness :
    (0 ∈ ([0] : List ℕ)) ∧
    channelStatuses
        (recordOvercurrents [0] (fun d => d) [fun _ => false, fun _ => true])
        (1 / 5) 0 [[0], [0]] = [2, 2] := by
  have h := c2_status_overcurrent_amended [0] (fun d => d)
    [fun _ => false, fun _ => true] (1 / 5) 0 0 (by simp) rfl [[0], [0]]
  refine ⟨by simp, ?_⟩
  simpa using h

/-- Counterexample for C8: `enable_output(False)` on an enabled channel leaves
it in high-impedance mode but does not set its needs-reset flag, so the flag
is not "set exactly when the channel was left in a high-impedance mode" after
every operation. -/
theorem c8_reset_flag_counterexample :
    (((enableOutputStep hwStateOn false [0]).1.mode 0).isHiZ = true) ∧
    ((enableOutputStep hwStateOn false [0]).1.resetCache 0 = false) := by
  exact ⟨rfl, rfl⟩

/-- Claim C8 (amended): the needs-reset flag tracks high-impedance state after
the acquisition-running operations only: after `_measure` and after
`_enable_output(True)` every mapped channel's flag equals "mode is high
impedance"; `_enable_output(True)` first consumes the flags of exactly the
flagged requested channels by resetting their boards; `_measure` does so only
when at least one requested channel is not in high-impedance mode; and
`_enable_output(False)` leaves the reset cache untouched. -/
theorem c8_reset_flag_amended (s : HwState) (channels : List ℕ)
    (hne : channels ≠ []) :
    (∀ ch, ch < s.nchan →
      (enableOutputStep s true channels).1.resetCache ch =
        ((enableOutputStep s true channels).1.mode ch).isHiZ) ∧
    (enableOutputStep s true channels).2 =
      channels.filter (fun ch => s.resetCache ch) ∧
    (∀ ch, ch < s.nchan →
      (measureStep s channels).1.resetCache ch =
        ((measureStep s channels).1.mode ch).isHiZ) ∧
    (measureStep s channels).2 =
      (if (channels.filter (fun ch => !(s.mode ch).isHiZ)).isEmpty then []
       else channels.filter (fun ch => s.resetCache ch)) ∧
    (∀ ch, (enableOutputStep s false channels).1.resetCache ch = s.resetCache ch) := by
  have hcond : (true && !channels.isEmpty) = true := by
    simp [List.isEmpty_iff, hne]
  refine ⟨?_, ?_, ?_, ?_, ?_⟩
  · intro ch hch
    simp [enableOutputStep, hcond, updateResetCache, resetBoards, hch]
  · simp [enableOutputStep, hcond, resetBoards]
  · intro ch hch
    by_cases hmt : (channels.filter (fun c => !(s.mode c).isHiZ)).isEmpty = true
    · simp [measureStep, hmt, updateResetCache, hch]
    · simp only [Bool.not_eq_true] at hmt
      simp [measureStep, hmt, updateResetCache, resetBoards, hch]
  · by_cases hmt : (channels.filter (fun c => !(s.mode c).isHiZ)).isEmpty = true
    · simp [measureStep, hmt]
    · simp only [Bool.not_eq_true] at hmt
      simp [measureStep, hmt, resetBoards]
  · intro ch
    simp [enableOutputStep]

/-- Witness for C8's amended statement on the concrete one-channel state. -/
theorem c8_reset_flag_amended_witness :
    ([0] : List ℕ) ≠ [] ∧
    (measureStep hwStateOn [0]).1.resetCache 0 =
      ((measureStep hwStateOn [0]).1.mode 0).isHiZ :=
  ⟨by simp, (c8_reset_flag_amended hwStateOn [0] (by simp)).2.2.1 0 (by norm_num [hwStateOn])⟩

end M1K

namespace M1K

theorem interpSeg_at_left (x1 y1 x2 y2 : ℚ) : interpSeg x1 y1 x2 y2 x1 = y1 := by
  simp [interpSeg]

theorem interpSeg_at_right (x1 y1 x2 y2 : ℚ) (h : x1 ≠ x2) :
    interpSeg x1 y1 x2 y2 x2 = y2 := by
  have hne : x2 - x1 ≠ 0 := sub_ne_zero.mpr (Ne.symm h)
  field_simp [interpSeg]

theorem chainFst_lt_of_mem {p1 : ℚ × ℚ} {l : List (ℚ × ℚ)}
    (h : (p1 :: l).Chain' (fun p q => p.1 < q.1)) :
    ∀ p ∈ l, p1.1 < p.1 := by
  induction l generalizing p1 with
  | nil => intro p hp; cases hp
  | cons q t ih =>
      intro p hp
      have h12 : p1.1 < q.1 := (List.chain'_cons.mp h).1
      rcases List.mem_cons.mp hp with rfl | hp2
      · exact h12
      · exact lt_trans h12 (ih (List.chain'_cons.mp h).2 p hp2)

theorem lastX_cons (p2 q : ℚ × ℚ) (t : List (ℚ × ℚ)) :
    lastX p2 (q :: t) = lastX q t := by
  simp only [lastX]
  rw [List.getLast_cons (by simp)]

theorem le_lastX (p2 : ℚ × ℚ) (rest : List (ℚ × ℚ))
    (h : (p2 :: rest).Chain' (fun p q => p.1 < q.1)) :
    p2.1 ≤ lastX p2 rest := by
  induction rest generalizing p2 with
  | nil => simp [lastX]
  | cons q t ih =>
      have h12 : p2.1 < q.1 := (List.chain'_cons.mp h).1
      have h2 := ih q (List.chain'_cons.mp h).2
      rw [lastX_cons]
      linarith

theorem interpCore_first_seg (p1 p2 : ℚ × ℚ) (rest : List (ℚ × ℚ)) (t : ℚ)
    (h : t ≤ p2.1) :
    interpCore p1 p2 rest t = interpSeg p1.1 p1.2 p2.1 p2.2 t := by
  cases rest with
  | nil => rfl
  | cons q tl => simp [interpCore, h]

theorem interpCore_last_seg (p1 p2 : ℚ × ℚ) (rest : List (ℚ × ℚ)) (t : ℚ)
    (hs : (p2 :: rest).Chain' (fun p q => p.1 < q.1)) (h : lastX p2 rest < t) :
    interpCore p1 p2 rest t =
      interpSeg (lastTwo p1 p2 rest).1.1 (lastTwo p1 p2 rest).1.2
        (lastTwo p1 p2 rest).2.1 (lastTwo p1 p2 rest).2.2 t := by
  induction rest generalizing p1 p2 with
  | nil => rfl
  | cons q tl ih =>
      have hx : lastX p2 (q :: tl) = lastX q tl := lastX_cons p2 q tl
      have htail : (q :: tl).Chain' (fun p q => p.1 < q.1) :=
        (List.chain'_cons.mp hs).2
      have hq : q.1 ≤ lastX q tl := le_lastX q tl htail
      have h2q : p2.1 < q.1 := (List.chain'_cons.mp hs).1
      rw [hx] at h
      have hnotle : ¬(t ≤ p2.1) := by linarith
      simp only [interpCore, if_neg hnotle, lastTwo]
      exact ih p2 q htail h

theorem interpSeg_bound {x1 y1 x2 y2 t lo hi : ℚ} (h12 : x1 < x2)
    (ht1 : x1 ≤ t) (ht2 : t ≤ x2)
    (h1l : lo ≤ y1) (h1h : y1 ≤ hi) (h2l : lo ≤ y2) (h2h : y2 ≤ hi) :
    lo ≤ interpSeg x1 y1 x2 y2 t ∧ interpSeg x1 y1 x2 y2 t ≤ hi := by
  have hd : (0 : ℚ) < x2 - x1 := by linarith
  have hs0 : 0 ≤ (t - x1) / (x2 - x1) := div_nonneg (by linarith) (le_of_lt hd)
  have hs1 : (t - x1) / (x2 - x1) ≤ 1 := (div_le_one hd).mpr (by linarith)
  have he : interpSeg x1 y1 x2 y2 t =
      y1 * (1 - (t - x1) / (x2 - x1)) + y2 * ((t - x1) / (x2 - x1)) := by
    rw [interpSeg]
    ring
  constructor
  · rw [he]
    have l1 : lo * (1 - (t - x1) / (x2 - x1)) ≤ y1 * (1 - (t - x1) / (x2 - x1)) :=
      mul_le_mul_of_nonneg_right h1l (by linarith)
    have l2 : lo * ((t - x1) / (x2 - x1)) ≤ y2 * ((t - x1) / (x2 - x1)) :=
      mul_le_mul_of_nonneg_right h2l hs0
    have hr : lo * (1 - (t - x1) / (x2 - x1)) + lo * ((t - x1) / (x2 - x1)) = lo := by
      ring
    linarith
  · rw [he]
    have l1 : y1 * (1 - (t - x1) / (x2 - x1)) ≤ hi * (1 - (t - x1) / (x2 - x1)) :=
      mul_le_mul_of_nonneg_right h1h (by linarith)
    have l2 : y2 * ((t - x1) / (x2 - x1)) ≤ hi * ((t - x1) / (x2 - x1)) :=
      mul_le_mul_of_nonneg_right h2h hs0
    have hr : hi * (1 - (t - x1) / (x2 - x1)) + hi * ((t - x1) / (x2 - x1)) = hi := by
      ring
    linarith

theorem interpCore_bound {lo hi : ℚ} (p1 p2 : ℚ × ℚ) (rest : List (ℚ × ℚ)) (t : ℚ)
    (hs : TableSorted p1 p2 rest)
    (hys : ∀ p ∈ p1 :: p2 :: rest, lo ≤ p.2 ∧ p.2 ≤ hi)
    (ht1 : p1.1 ≤ t) (ht2 : t ≤ lastX p2 rest) :
    lo ≤ interpCore p1 p2 rest t ∧ interpCore p1 p2 rest t ≤ hi := by
  induction rest generalizing p1 p2 with
  | nil =>
      have h12 : p1.1 < p2.1 := (List.chain'_cons.mp hs).1
      have h1 := hys p1 (by simp)
      have h2 := hys p2 (by simp)
      have ht2b : t ≤ p2.1 := by simpa [lastX] using ht2
      exact interpSeg_bound h12 ht1 ht2b h1.1 h1.2 h2.1 h2.2
  | cons q tl ih =>
      have h12 : p1.1 < p2.1 := (List.chain'_cons.mp hs).1
      have htail : TableSorted p2 q tl := (List.chain'_cons.mp hs).2
      by_cases hle : t ≤ p2.1
      · simp only [interpCore, if_pos hle]
        have h1 := hys p1 (by simp)
        have h2 := hys p2 (by simp)
        exact interpSeg_bound h12 ht1 hle h1.1 h1.2 h2.1 h2.2
      · push_neg at hle
        simp only [interpCore, if_neg (not_le.mpr hle)]
        refine ih p2 q htail ?_ (le_of_lt hle) ?_
        · intro p hp
          exact hys p (List.mem_cons_of_mem p1 hp)
        · rw [← lastX_cons p2 q tl]
          exact ht2

theorem interpCore_exact (p1 p2 : ℚ × ℚ) (rest : List (ℚ × ℚ))
    (hs : TableSorted p1 p2 rest) :
    ∀ p ∈ p1 :: p2 :: rest, interpCore p1 p2 rest p.1 = p.2 := by
  induction rest generalizing p1 p2 with
  | nil =>
      intro p hp
      have h12 : p1.1 < p2.1 := (List.chain'_cons.mp hs).1
      rcases List.mem_cons.mp hp with rfl | hp2
      · exact interpSeg_at_left _ _ _ _
      · rcases List.mem_cons.mp hp2 with rfl | h3
        · exact interpSeg_at_right _ _ _ _ (ne_of_lt h12)
        · cases h3
  | cons q tl ih =>
      intro p hp
      have h12 : p1.1 < p2.1 := (List.chain'_cons.mp hs).1
      have htail : TableSorted p2 q tl := (List.chain'_cons.mp hs).2
      rcases List.mem_cons.mp hp with rfl | hp2
      · simp only [interpCore, if_pos (le_of_lt h12)]
        exact interpSeg_at_left _ _ _ _
      · rcases List.mem_cons.mp hp2 with rfl | h3
        · simp only [interpCore, if_pos (le_refl p.1)]
          exact interpSeg_at_right _ _ _ _ (ne_of_lt h12)
        · have hgt : p2.1 < p.1 := chainFst_lt_of_mem htail p h3
          simp only [interpCore, if_neg (not_le.mpr hgt)]
          exact ih p2 q htail p hp2

/-- Counterexample for C6: a source-voltage calibration table whose setpoint
values reach 6 V makes the setpoint interpolant return 6 at an in-domain
input, outside [0, 5]. -/
theorem c6_source_v_setpoint_counterexample :
    sourceVSetInterpolant (0, 0) (1, 6) [] 1 = 6 ∧
    ¬(sourceVSetInterpolant (0, 0) (1, 6) [] 1 ≤ 5) := by
  have h : sourceVSetInterpolant (0, 0) (1, 6) [] 1 = 6 := by
    norm_num [sourceVSetInterpolant, interpClamped, lastX, interpCore, interpSeg]
  exact ⟨h, by rw [h]; norm_num⟩

/-- Claim C6 (amended): over a sorted table, every 'meas'-kind interpolant
reproduces the table values exactly at the table points and extrapolates
linearly outside the data domain along the boundary segments; the
source-voltage setpoint interpolant returns 0 below the table domain and 5
above it, and inside the domain a convex combination of adjacent table
setpoints — hence a value in [0, 5] for every input whenever the table's
setpoint values lie in [0, 5]. -/
theorem c6_calibration_interpolants_amended (p1 p2 : ℚ × ℚ)
    (rest : List (ℚ × ℚ)) (hs : TableSorted p1 p2 rest) :
    (∀ p ∈ p1 :: p2 :: rest, measInterpolant p1 p2 rest p.1 = p.2) ∧
    (∀ t, t < p1.1 →
      measInterpolant p1 p2 rest t = interpSeg p1.1 p1.2 p2.1 p2.2 t) ∧
    (∀ t, lastX p2 rest < t →
      measInterpolant p1 p2 rest t =
        interpSeg (lastTwo p1 p2 rest).1.1 (lastTwo p1 p2 rest).1.2
          (lastTwo p1 p2 rest).2.1 (lastTwo p1 p2 rest).2.2 t) ∧
    (∀ t, t < p1.1 → sourceVSetInterpolant p1 p2 rest t = 0) ∧
    (∀ t, lastX p2 rest < t → sourceVSetInterpolant p1 p2 rest t = 5) ∧
    ((∀ p ∈ p1 :: p2 :: rest, 0 ≤ p.2 ∧ p.2 ≤ 5) →
      ∀ t, 0 ≤ sourceVSetInterpolant p1 p2 rest t ∧
        sourceVSetInterpolant p1 p2 rest t ≤ 5) := by
  have h12 : p1.1 < p2.1 := (List.chain'_cons.mp hs).1
  have htail : (p2 :: rest).Chain' (fun p q => p.1 < q.1) :=
    (List.chain'_cons.mp hs).2
  refine ⟨interpCore_exact p1 p2 rest hs, ?_, ?_, ?_, ?_, ?_⟩
  · intro t ht
    exact interpCore_first_seg p1 p2 rest t (by linarith)
  · intro t ht
    exact interpCore_last_seg p1 p2 rest t htail ht
  · intro t ht
    simp [sourceVSetInterpolant, interpClamped, ht]
  · intro t ht
    have hnot : ¬(t < p1.1) := by
      have := le_lastX p2 rest htail
      push_neg
      linarith
    simp [sourceVSetInterpolant, interpClamped, hnot, ht]
  · intro hys t
    by_cases hlo : t < p1.1
    · simp [sourceVSetInterpolant, interpClamped, hlo]
    · by_cases hhigh : lastX p2 rest < t
      · have hnot : ¬(t < p1.1) := hlo
        simp [sourceVSetInterpolant, interpClamped, hnot, hhigh]
      · push_neg at hlo hhigh
        have hb := interpCore_bound p1 p2 rest t hs hys hlo hhigh
        simpa [sourceVSetInterpolant, interpClamped, not_lt.mpr hlo,
          not_lt.mpr hhigh] using hb

/-- Witness for C6's amended statement on the identity table [(0,0), (1,1)]. -/
theorem c6_calibration_interpolants_amended_witness :
    TableSorted (0, 0) (1, 1) [] ∧
    measInterpolant (0, 0) (1, 1) [] 0 = 0 ∧
    sourceVSetInterpolant (0, 0) (1, 1) [] (-1) = 0 := by
  have hs : TableSorted (0, 0) (1, 1) [] := by
    norm_num [TableSorted]
  have h := c6_calibration_interpolants_amended (0, 0) (1, 1) [] hs
  refine ⟨hs, ?_, ?_⟩
  · have h0 := h.1 (0, 0) (by simp)
    simpa using h0
  · exact h.2.2.2.1 (-1) (by norm_num)

end M1K

namespace M1K.OldRev

theorem windowValues_nil (spd : ℕ) : windowValues spd [] = [] := by
  rw [windowValues]

theorem windowValues_cons (spd : ℕ) (x : ℚ) (xs : List ℚ) :
    windowValues spd (x :: xs) = x :: windowValues spd (xs.drop (spd - 1)) := by
  rw [windowValues]

theorem windowValues_expand (vs : List ℚ) (spd : ℕ) (h : 0 < spd) :
    windowValues spd (expandSamples vs spd) = vs := by
  induction vs with
  | nil => simp [expandSamples, windowValues_nil]
  | cons v t ih =>
      obtain ⟨k, rfl⟩ : ∃ k, spd = k + 1 := ⟨spd - 1, by omega⟩
      simp only [expandSamples, List.flatMap_cons] at ih ⊢
      rw [List.replicate_succ, List.cons_append, windowValues_cons,
        Nat.add_sub_cancel, List.drop_left' (List.length_replicate k v), ih]

theorem windowValues_length_mul (spd : ℕ) (h : 0 < spd) :
    ∀ (k : ℕ) (l : List ℚ), l.length = k * spd →
      (windowValues spd l).length = k := by
  intro k
  induction k with
  | zero =>
      intro l hl
      have hnil : l = [] := List.eq_nil_of_length_eq_zero (by simpa using hl)
      subst hnil
      simp [windowValues_nil]
  | succ m ih =>
      intro l hl
      cases l with
      | nil =>
          exfalso
          have hp : 0 < (m + 1) * spd := Nat.mul_pos (Nat.succ_pos m) h
          simp only [List.length_nil] at hl
          omega
      | cons x xs =>
          rw [windowValues_cons]
          simp only [List.length_cons]
          rw [ih (xs.drop (spd - 1)) ?_]
          · simp only [List.length_drop]
            have h1 : xs.length + 1 = (m + 1) * spd := by simpa using hl
            have h2 : (m + 1) * spd = m * spd + spd := by ring
            omega

theorem expand_reverse (vs : List ℚ) (spd : ℕ) :
    (expandSamples vs spd).reverse = expandSamples vs.reverse spd := by
  induction vs with
  | nil => simp [expandSamples]
  | cons v t ih =>
      simp only [expandSamples, List.flatMap_cons, List.reverse_cons,
        List.reverse_append, List.reverse_replicate, List.flatMap_append] at ih ⊢
      simp [ih]

theorem take_add_split (l : List ℚ) (m n : ℕ) :
    l.take (m + n) = l.take m ++ (l.drop m).take n := by
  induction m generalizing l with
  | zero => simp
  | succ k ih =>
      cases l with
      | nil => simp
      | cons x xs =>
          have hc : k + 1 + n = (k + n) + 1 := by omega
          rw [hc]
          simp only [List.take_succ_cons, List.drop_succ_cons]
          rw [ih xs]
          simp

theorem scanEmit_eq_take (samples : List ℚ) (spc : ℕ) (k : ℕ) :
    scanEmit samples spc k = samples.take (k * spc) := by
  induction k with
  | zero => simp [scanEmit]
  | succ m ih =>
      rw [scanEmit, ih, chunkSlice]
      have hc : (m + 1) * spc = m * spc + spc := by ring
      rw [hc, take_add_split]

theorem dualScanEmit_succ (s : List ℚ) (spc k : ℕ) :
    dualScanEmit s spc (k + 1) =
      ((dualScanEmit s spc k).1.reverse,
       (dualScanEmit s spc k).2 ++
         chunkSlice (dualScanEmit s spc k).1.reverse spc k) := rfl

theorem dualScanEmit_fst_length (s : List ℚ) (spc : ℕ) (k : ℕ) :
    (dualScanEmit s spc k).1.length = s.length := by
  induction k with
  | zero => rfl
  | succ m ih => rw [dualScanEmit_succ]; simpa using ih

theorem dualScanEmit_snd_length (s : List ℚ) (spc : ℕ) (k : ℕ) :
    (dualScanEmit s spc k).2.length = min (k * spc) s.length := by
  induction k with
  | zero => simp [dualScanEmit]
  | succ m ih =>
      rw [dualScanEmit_succ]
      simp only [List.length_append, ih, chunkSlice, List.length_take,
        List.length_drop, List.length_reverse, dualScanEmit_fst_length]
      have hc : (m + 1) * spc = m * spc + spc := by ring
      omega

theorem dualScanEmit_one (s : List ℚ) (spc : ℕ) :
    dualScanEmit s spc 1 = (s.reverse, chunkSlice s.reverse spc 0) := rfl

theorem dualScanEmit_two (s : List ℚ) (spc : ℕ) :
    dualScanEmit s spc 2 =
      (s.reverse.reverse,
       chunkSlice s.reverse spc 0 ++ chunkSlice s.reverse.reverse spc 1) := rfl

theorem sweepValues_length (start stop : ℚ) (n : ℕ) :
    (sweepValues start stop n).length = n := by
  rw [sweepValues, List.length_map, List.length_range]

theorem dualSweepWritten_single_chunk (values : List ℚ) (spd maxbuf : ℕ)
    (hspd : 0 < spd) (hlen : 0 < values.length)
    (hfit : values.length * spd ≤ maxbuf) :
    dualSweepWritten values spd maxbuf =
      expandSamples (values ++ values.reverse) spd := by
  simp only [dualSweepWritten, expand_length]
  have htot : 0 < values.length * spd := Nat.mul_pos hlen hspd
  have hspc : samplesPerChunk (values.length * spd) maxbuf spd =
      values.length * spd := by
    simp [samplesPerChunk, hfit]
  rw [hspc]
  have hnc : (values.length * spd + values.length * spd - 1) /
      (values.length * spd) = 1 := by
    have h1 : values.length * spd + values.length * spd - 1 =
        (values.length * spd - 1) + values.length * spd := by omega
    rw [h1, Nat.add_div_right _ htot, Nat.div_eq_of_lt (by omega)]
  rw [hnc, scanEmit_eq_take, one_mul,
    List.take_of_length_le (by rw [expand_length]), dualScanEmit_one]
  have hrev : chunkSlice (expandSamples values spd).reverse
      (values.length * spd) 0 = (expandSamples values spd).reverse := by
    rw [chunkSlice, Nat.zero_mul, List.drop_zero]
    exact List.take_of_length_le (by rw [List.length_reverse, expand_length])
  rw [hrev, expand_reverse]
  simp [expandSamples]

theorem dualSweepWritten_length (values : List ℚ) (spd maxbuf : ℕ)
    (hspd : 0 < spd) (hle : spd ≤ maxbuf) (hlen : 0 < values.length) :
    (dualSweepWritten values spd maxbuf).length = 2 * (values.length * spd) := by
  have htpos : 0 < (expandSamples values spd).length := by
    rw [expand_length]
    exact Nat.mul_pos hlen hspd
  have hspc_pos : 0 < samplesPerChunk (expandSamples values spd).length maxbuf spd := by
    by_cases hc : (expandSamples values spd).length ≤ maxbuf
    · simpa [samplesPerChunk, hc] using htpos
    · have hd : 0 < maxbuf / spd := (Nat.one_le_div_iff hspd).mpr hle
      simp only [samplesPerChunk, hc, if_false]
      exact Nat.mul_pos hd hspd
  have hcover := ceil_div_mul_ge (expandSamples values spd).length hspc_pos
  simp only [dualSweepWritten, List.length_append]
  rw [scanEmit_eq_take, List.length_take, dualScanEmit_snd_length]
  rw [expand_length] at hcover htpos ⊢
  set X := values.length * spd with hX
  set A := ((X + samplesPerChunk X maxbuf spd - 1) / samplesPerChunk X maxbuf spd) *
    samplesPerChunk X maxbuf spd with hA
  omega

theorem dualSweepWritten_two_chunks (a b : ℚ) (B : ℕ) (hB : 0 < B) :
    dualSweepWritten [a, b] B B = expandSamples [a, b, b, b] B := by
  have hexp : expandSamples [a, b] B =
      List.replicate B a ++ List.replicate B b := by
    simp [expandSamples]
  simp only [dualSweepWritten, expand_length]
  have hlen2 : ([a, b] : List ℚ).length * B = 2 * B := by simp
  rw [hlen2]
  have hspc : samplesPerChunk (2 * B) B B = B := by
    have hnot : ¬(2 * B ≤ B) := by omega
    simp [samplesPerChunk, hnot, Nat.div_self hB]
  rw [hspc]
  have hnc : (2 * B + B - 1) / B = 2 := by
    have h1 : 2 * B + B - 1 = (B - 1) + 2 * B := by omega
    rw [h1, Nat.add_mul_div_right _ _ hB, Nat.div_eq_of_lt (by omega)]
  rw [hnc, scanEmit_eq_take,
    List.take_of_length_le (by rw [expand_length]; simp), dualScanEmit_two]
  have hrev : (expandSamples [a, b] B).reverse =
      List.replicate B b ++ List.replicate B a := by
    rw [hexp]
    simp
  have hchunk0 : chunkSlice (expandSamples [a, b] B).reverse B 0 =
      List.replicate B b := by
    rw [chunkSlice, Nat.zero_mul, List.drop_zero, hrev,
      List.take_left' (List.length_replicate B b)]
  have hchunk1 : chunkSlice (expandSamples [a, b] B).reverse.reverse B 1 =
      List.replicate B b := by
    rw [chunkSlice, List.reverse_reverse, hexp, one_mul,
      List.drop_left' (List.length_replicate B a)]
    exact List.take_of_length_le (by simp)
  rw [hchunk0, hchunk1, hexp]
  simp [expandSamples]

end M1K.OldRev

namespace M1K

/-- Counterexample for C5: a dual sweep of 2 points with
`samples_per_datum = 100000` needs two chunks; because the in-place
`samples.reverse()` sits inside the chunk loop, the second pass emits the stop
value twice instead of the reversed sweep, so the returned setpoints are
`[0, 1, 1, 1]` rather than `[0, 1] ++ [1, 0]`. -/
theorem c5_dual_sweep_counterexample :
    OldRev.windowValues 100000
        (OldRev.dualSweepWritten (OldRev.sweepValues 0 1 2) 100000
          maximumBufferSize) = [0, 1, 1, 1] ∧
    ¬((OldRev.windowValues 100000
        (OldRev.dualSweepWritten (OldRev.sweepValues 0 1 2) 100000
          maximumBufferSize)).drop 2 =
      ((OldRev.windowValues 100000
        (OldRev.dualSweepWritten (OldRev.sweepValues 0 1 2) 100000
          maximumBufferSize)).take 2).reverse) := by
  have hsv : OldRev.sweepValues 0 1 2 = [0, 1] := by
    norm_num [OldRev.sweepValues, List.range_succ]
  have hmb : maximumBufferSize = 100000 := rfl
  have hw : OldRev.windowValues 100000
      (OldRev.dualSweepWritten (OldRev.sweepValues 0 1 2) 100000
        maximumBufferSize) = [0, 1, 1, 1] := by
    rw [hsv, hmb, OldRev.dualSweepWritten_two_chunks 0 1 100000 (by norm_num),
      OldRev.windowValues_expand _ _ (by norm_num)]
  refine ⟨hw, ?_⟩
  rw [hw]
  simp

/-- Claim C5 (amended): after `configure_sweep(start, stop, n, dual=True)`,
`measure("sweep")` returns exactly `2n` points per channel for any number of
chunks; when the expanded sweep fits in one chunk the setpoints of the last
`n` points are the exact reverse of the first `n` (with multiple chunks the
second pass is not the reversed sequence, see the counterexample). -/
theorem c5_dual_sweep_amended (start stop : ℚ) (n spd maxbuf : ℕ)
    (hn : 2 ≤ n) (hspd : 0 < spd) (hle : spd ≤ maxbuf) :
    (OldRev.windowValues spd
      (OldRev.dualSweepWritten (OldRev.sweepValues start stop n) spd
        maxbuf)).length = 2 * n ∧
    (n * spd ≤ maxbuf →
      OldRev.windowValues spd
          (OldRev.dualSweepWritten (OldRev.sweepValues start stop n) spd maxbuf) =
        OldRev.sweepValues start stop n ++ (OldRev.sweepValues start stop n).reverse ∧
      (OldRev.windowValues spd
          (OldRev.dualSweepWritten (OldRev.sweepValues start stop n) spd
            maxbuf)).drop n =
        ((OldRev.windowValues spd
          (OldRev.dualSweepWritten (OldRev.sweepValues start stop n) spd
            maxbuf)).take n).reverse) := by
  have hvl : (OldRev.sweepValues start stop n).length = n :=
    OldRev.sweepValues_length start stop n
  have hpos : 0 < (OldRev.sweepValues start stop n).length := by omega
  constructor
  · apply OldRev.windowValues_length_mul spd hspd (2 * n)
    rw [OldRev.dualSweepWritten_length _ _ _ hspd hle hpos, hvl]
    ring
  · intro hfit
    have hw := OldRev.dualSweepWritten_single_chunk (OldRev.sweepValues start stop n)
      spd maxbuf hspd hpos (by rw [hvl]; exact hfit)
    rw [hw, OldRev.windowValues_expand _ _ hspd]
    refine ⟨rfl, ?_⟩
    rw [List.drop_left' hvl, List.take_left' hvl]

/-- Witness for C5's amended statement: a 2-point dual sweep that fits in one
chunk. -/
theorem c5_dual_sweep_amended_witness :
    (OldRev.windowValues 1
      (OldRev.dualSweepWritten (OldRev.sweepValues 0 1 2) 1 100)).length = 2 * 2 ∧
    (OldRev.windowValues 1
        (OldRev.dualSweepWritten (OldRev.sweepValues 0 1 2) 1 100)).drop 2 =
      ((OldRev.windowValues 1
        (OldRev.dualSweepWritten (OldRev.sweepValues 0 1 2) 1 100)).take 2).reverse := by
  have h := c5_dual_sweep_amended 0 1 2 1 100 (by norm_num) (by norm_num) (by norm_num)
  exact ⟨h.1, (h.2 (by norm_num)).2⟩

end M1K
